import Mathlib

/-!
Shallow embedding of `kleanup.py` (repository drekbad/kleanup).

The filesystem is modelled as a finite tree of directories; every file carries
the size reported by `os.path.getsize`, the timestamp returned by
`get_file_time` (creation or modification time, chosen once per run), and a
flag recording whether `os.path.islink` is true for it.  Timestamps are
integers (`datetime` values are totally ordered; only comparisons are used).
Filesystem access errors (`FileNotFoundError`, `PermissionError`) are not
modelled: the embedded filesystem is deterministic, so every `stat`/`getsize`
succeeds.  Directory symbolic links are not modelled either: `os.walk` is
called with `followlinks=False` throughout, so the traversal only ever sees
the real directory tree.
-/

namespace Kleanup

/-- One regular directory entry as seen by `os.walk`: its name, the value of
`os.path.getsize`, the timestamp `get_file_time` returns for it, and whether
`os.path.islink` holds. -/
structure FileEntry where
  name : String
  size : Nat
  time : Int
  islink : Bool
deriving DecidableEq, Repr

mutual

/-- A directory: its name, its direct files, and its subdirectories. -/
inductive FSTree : Type where
  | node (name : String) (files : List FileEntry) (subdirs : Forest)
deriving DecidableEq, Repr

/-- A list of subdirectories (spelled out so that all recursions are
structural and compute inside the kernel). -/
inductive Forest : Type where
  | nil
  | cons (head : FSTree) (tail : Forest)
deriving DecidableEq, Repr

end

def FSTree.name : FSTree → String
  | .node n _ _ => n

def FSTree.files : FSTree → List FileEntry
  | .node _ fs _ => fs

def FSTree.subdirs : FSTree → Forest
  | .node _ _ ds => ds

def Forest.toList : Forest → List FSTree
  | .nil => []
  | .cons d rest => d :: rest.toList

/-- `len(dirs)` for a visited directory. -/
def Forest.length (ds : Forest) : Nat := ds.toList.length

/-- Does a path end in the separator?  (Spelled out structurally so that the
kernel can evaluate it on concrete paths.) -/
def endsWithSlash (r : String) : Bool :=
  r.data.getLast? == some '/'

/-- `os.path.join(root, name)`: Python does not double the separator when
`root` already ends with `/` (the configured base paths such as `/root/`
do). -/
def joinPath (r n : String) : String :=
  if endsWithSlash r then r ++ n else r ++ "/" ++ n

/-- Python `path.startswith(prefixString)`: a literal character-prefix test. -/
def startswith (pre p : String) : Bool :=
  pre.data.isPrefixOf p.data

/-- The static `EXCLUDED_DIRECTORIES` list of `kleanup.py`. -/
def EXCLUDED_DIRECTORIES : List String := [
  "/root/.local/",
  "/root/.cache/",
  "/root/.config/",
  "/home/kali/.local/",
  "/home/kali/.cache/",
  "/home/kali/.config/",
  "/root/.config/google-chrome/",
  "/root/.cache/google-chrome/",
  "/home/kali/.config/google-chrome/",
  "/home/kali/.cache/google-chrome/",
  "/root/.config/firefox/",
  "/root/.cache/firefox/",
  "/home/kali/.config/firefox/",
  "/home/kali/.cache/firefox/",
  "/root/.mozilla/firefox/",
  "/home/kali/.mozilla/firefox/"]

/-- `is_excluded_path`: `any(path.startswith(d) for d in EXCLUDED_DIRECTORIES)`. -/
def is_excluded_path (p : String) : Bool :=
  EXCLUDED_DIRECTORIES.any (fun d => startswith d p)

/-- The time window: `start_date` and the optional `end_date`. -/
structure Window where
  start : Int
  stop : Option Int
deriving DecidableEq, Repr

/-- The window test of `get_directory_info`: with an end date,
`start_date <= file_time < end_date`; otherwise `file_time >= start_date`. -/
def fileMatches (w : Window) (t : Int) : Bool :=
  match w.stop with
  | some e => decide (w.start ≤ t) && decide (t < e)
  | none => decide (w.start ≤ t)

/-- One `DirectoryRecord` as stored in `dir_info`:
`{'count': …, 'size': …, 'dir_count': …, 'file_count': …}`. -/
structure Rec where
  count : Nat
  size : Nat
  dir_count : Nat
  file_count : Nat
deriving DecidableEq, Repr

mutual

/-- The list of `(root, files, dirs)` triples yielded by
`os.walk(base, followlinks=False)` in top-down order, `p` being the path of
the directory being walked. -/
def walkVisits (p : String) : FSTree → List (String × List FileEntry × Forest)
  | .node _ fs ds => (p, fs, ds) :: walkForest p ds

/-- The visits contributed by the subdirectories of a directory at path `p`. -/
def walkForest (p : String) : Forest → List (String × List FileEntry × Forest)
  | .nil => []
  | .cons d rest => walkVisits (joinPath p d.name) d ++ walkForest p rest

end

/-- One step of the direct-file loop of `get_directory_info`: skip excluded
paths and symbolic links, then count and size the files inside the window. -/
def scanStep (w : Window) (q : String) (cs : Nat × Nat) (f : FileEntry) : Nat × Nat :=
  if is_excluded_path (joinPath q f.name) || f.islink then cs
  else if fileMatches w f.time then (cs.1 + 1, cs.2 + f.size) else cs

/-- The direct-file loop of `get_directory_info` (lines 82-101): local
`count` and `total_size` of a visited directory. -/
def scanFiles (w : Window) (q : String) (fs : List FileEntry) : Nat × Nat :=
  fs.foldl (scanStep w q) (0, 0)

/-- The inner loop of the rollup re-walk: `subdir_total` gains the size of
every file of one visited directory that is not excluded (note: no symbolic
link check here, faithful to lines 115-119 of the source). -/
def visitSize (q : String) (fs : List FileEntry) : Nat :=
  fs.foldl (fun acc f => if is_excluded_path (joinPath q f.name) then acc else acc + f.size) 0

/-- The size the rollup re-walk (`os.walk(subdir_path)`) accumulates for one
subdirectory subtree rooted at path `p`. -/
def subtreeSize (p : String) (t : FSTree) : Nat :=
  (walkVisits p t).foldl (fun acc v => acc + visitSize v.1 v.2.1) 0

/-- The rollup loop over the subdirectories of a directory at path `p`
(lines 110-129): `subdir_total` accumulates across subdirectories and the
loop `break`s — recording `subdir_total` — as soon as it is positive. -/
def rollupGo (p : String) (acc : Nat) : Forest → Option Nat
  | .nil => none
  | .cons d rest =>
    let acc' := acc + subtreeSize (joinPath p d.name) d
    if 0 < acc' then some acc' else rollupGo p acc' rest

/-- The rollup result for a visited directory: `some total` iff the loop
recorded, starting from `subdir_total = 0`. -/
def rollup (p : String) (ds : Forest) : Option Nat :=
  rollupGo p 0 ds

/-- The record `get_directory_info` stores for one visited, non-excluded
directory: local totals when `count > 0 or total_size > 0`, otherwise the
rollup record when there are subdirectories and the rollup loop fires. -/
def dirRecordVisit (w : Window) (q : String) (fs : List FileEntry) (ds : Forest) : Option Rec :=
  match scanFiles w q fs with
  | (c, s) =>
    if 0 < c ∨ 0 < s then some ⟨c, s, ds.length, c⟩
    else
      match ds with
      | .nil => none
      | .cons _ _ => (rollup q ds).map (fun sz => ⟨c, sz, ds.length, c⟩)

/-- The `dir_info` entries produced by walking one base path: every visit is
processed unless its path is excluded (`continue` on line 79-80; the walk
still descends, as the source never prunes `dirs`). -/
def walkRecords (w : Window) (p : String) (t : FSTree) : List (String × Rec) :=
  (walkVisits p t).filterMap (fun v =>
    if is_excluded_path v.1 then none
    else (dirRecordVisit w v.1 v.2.1 v.2.2).map (fun r => (v.1, r)))

/-- Python `path.split("/")` on the character list: split at every `/`,
keeping empty parts (structural, so the kernel can evaluate it). -/
def splitChars : List Char → List (List Char)
  | [] => [[]]
  | c :: rest =>
    let r := splitChars rest
    if c = '/' then [] :: r
    else
      match r with
      | [] => [[c]]
      | h :: t => (c :: h) :: t

/-- Python `path.split("/")`. -/
def pySplitSlash (p : String) : List String :=
  (splitChars p.data).map (fun l => ⟨l⟩)

/-- Python `"/".join(parts)`. -/
def joinSlash : List String → String
  | [] => ""
  | [x] => x
  | x :: rest => x ++ "/" ++ joinSlash rest

/-- `"/".join(path.split("/")[:-2])`: the grouping key of
`summarize_directories`. -/
def groupKey (p : String) : String :=
  joinSlash (((pySplitSlash p).dropLast).dropLast)

/-- Elementwise sum of two records, as performed by the `+=` updates of
`summarize_directories` on a `defaultdict` slot. -/
def addRec (a b : Rec) : Rec :=
  ⟨a.count + b.count, a.size + b.size, a.dir_count + b.dir_count, a.file_count + b.file_count⟩

/-- Add a record to a `defaultdict(lambda: zeros)` association list: update
the existing slot, or append a fresh one holding exactly the record. -/
def upsert : List (String × Rec) → String → Rec → List (String × Rec)
  | [], k, r => [(k, r)]
  | (k', r') :: rest, k, r =>
    if k' = k then (k', addRec r' r) :: rest else (k', r') :: upsert rest k r

/-- `summarize_directories` (lines 63-71): fold every record into the group
keyed by its path with the last two segments removed. -/
def summarize_directories (di : List (String × Rec)) : List (String × Rec) :=
  di.foldl (fun acc pr => upsert acc (groupKey pr.1) pr.2) []

/-- Association-list lookup (Python `dict` access / `in` test). -/
def lookupRec : List (String × Rec) → String → Option Rec
  | [], _ => none
  | (k', r) :: rest, k => if k = k' then some r else lookupRec rest k

/-- `get_directory_info` returns the summarized mapping of all records
collected over the base paths (line 130). -/
def get_directory_info (w : Window) (roots : List (String × FSTree)) : List (String × Rec) :=
  summarize_directories ((roots.map (fun r => walkRecords w r.1 r.2)).flatten)

/-- Stable insertion into a key-sorted association list. -/
def insertSorted (x : String × Rec) : List (String × Rec) → List (String × Rec)
  | [] => [x]
  | y :: rest => if decide (x.1 ≤ y.1) then x :: y :: rest else y :: insertSorted x rest

/-- Python `sorted(dir_info.items())`: ascending, stable, ordered by the
path key (keys are unique, so the tuple comparison never reaches the
values). -/
def sortByKey : List (String × Rec) → List (String × Rec)
  | [] => []
  | x :: rest => insertSorted x (sortByKey rest)

/-- `list_directory_info` (lines 133-144): iterate the mapping in path-sorted
order, keep entries with a non-blank path and `file_count > 0`, and return
the displayed paths in order (`numbered_dirs`). -/
def list_directory_info (di : List (String × Rec)) : List String :=
  ((sortByKey di).filter
    (fun pr => !(pr.1 == "") && decide (0 < pr.2.file_count))).map (fun pr => pr.1)

/-- Python list indexing `l[z]`: negative indices count from the end, and
anything outside `-len(l) <= z < len(l)` raises `IndexError` (`none`). -/
def pyIndex (l : List String) (z : Int) : Option String :=
  if 0 ≤ z then l[z.toNat]?
  else if 0 ≤ z + l.length then l[(z + (l.length : Int)).toNat]? else none

/-- SELECT mode (line 213): `[new_dirs[i-1] for i in selected_dirs]`; any
`IndexError` aborts the whole comprehension (`none`). -/
def resolveSelect (l : List String) : List Nat → Option (List String)
  | [] => some []
  | i :: rest =>
    match pyIndex l ((i : Int) - 1), resolveSelect l rest with
    | some x, some xs => some (x :: xs)
    | _, _ => none

/-- IGNORE mode (line 216):
`[new_dirs[i-1] for i in range(1, len(new_dirs)+1) if i not in selected_dirs]`. -/
def resolveIgnore (l : List String) (S : List Nat) : List String :=
  ((List.range l.length).map (fun j => j + 1)).filterMap
    (fun i => if i ∈ S then none else pyIndex l ((i : Int) - 1))

/-- The total-size computation of `main` (lines 246-247): the sizes of every
final path found in the priority mapping, plus the sizes of every final path
found in the additional mapping.  A `sum(… for d in final if d in m)`
comprehension is embedded as a sum where absent keys contribute `0`. -/
def totalArchiveSize (pri add : List (String × Rec)) (finals : List String) : Nat :=
  (finals.map (fun p => match lookupRec pri p with | some r => r.size | none => 0)).sum +
  (finals.map (fun p => match lookupRec add p with | some r => r.size | none => 0)).sum

/-- The `filelist.txt` manifest contribution of one selected root
(lines 275-282): every file of the re-walk whose path is not excluded is
written — there is no symbolic-link check in this loop. -/
def manifestFiles (p : String) (t : FSTree) : List String :=
  ((walkVisits p t).map (fun v =>
    (v.2.1.filter (fun f => !is_excluded_path (joinPath v.1 f.name))).map
      (fun f => joinPath v.1 f.name))).flatten

/-- All (path, file) pairs anywhere in a subtree, in walk order. -/
def subtreeEntries (p : String) (t : FSTree) : List (String × FileEntry) :=
  ((walkVisits p t).map (fun v => v.2.1.map (fun f => (joinPath v.1 f.name, f)))).flatten

/-- Modelled from the spec (claim C1): the rolled-up total the claim
describes — the sizes of all non-excluded, **non-symlink** files anywhere in
one subtree.  Differs from `subtreeSize`, which is what the code computes. -/
def claimedSubtreeSize (p : String) (t : FSTree) : Nat :=
  (((subtreeEntries p t).filter (fun e => !is_excluded_path e.1 && !e.2.islink)).map
    (fun e => e.2.size)).sum

/-- Modelled from the spec (claim C1): the claim's rolled-up sum over **all**
of a directory's subdirectories. -/
def claimedRollupSize (p : String) (ds : Forest) : Nat :=
  (ds.toList.map (fun d => claimedSubtreeSize (joinPath p d.name) d)).sum

/-- Modelled from the spec (claim C5): each final path is looked up in the
priority mapping first and, only if absent there, in the additional mapping. -/
def claimedTotalSize (pri add : List (String × Rec)) (finals : List String) : Nat :=
  (finals.map (fun p =>
    match lookupRec pri p with
    | some r => r.size
    | none => match lookupRec add p with | some r => r.size | none => 0)).sum

/-- The full test one direct file must pass to be counted by the direct-file
loop: not excluded, not a symbolic link, and inside the active window. -/
def directMatch (w : Window) (q : String) (f : FileEntry) : Bool :=
  !is_excluded_path (joinPath q f.name) && !f.islink && fileMatches w f.time

/-- Keep only the files of one directory whose full path is not excluded. -/
def keepFiles (q : String) (fs : List FileEntry) : List FileEntry :=
  fs.filter (fun f => !is_excluded_path (joinPath q f.name))

mutual

/-- Remove every file whose full path is excluded, everywhere in a subtree
rooted at path `p` (directory structure untouched). -/
def eraseExcludedFiles (p : String) : FSTree → FSTree
  | .node n fs ds => .node n (keepFiles p fs) (eraseForest p ds)

/-- Remove every excluded file in a forest of subdirectories of `p`. -/
def eraseForest (p : String) : Forest → Forest
  | .nil => .nil
  | .cons d rest => .cons (eraseExcludedFiles (joinPath p d.name) d) (eraseForest p rest)

end

/-- The visit transformation corresponding to `eraseExcludedFiles`. -/
def eraseVisit (v : String × List FileEntry × Forest) : String × List FileEntry × Forest :=
  (v.1, keepFiles v.1 v.2.1, eraseForest v.1 v.2.2)

section HelperLemmas

/-- A `foldl` that only ever adds is the initial value plus a sum. -/
theorem foldl_add_sum {α : Type} (g : α → Nat) :
    ∀ (l : List α) (n : Nat), l.foldl (fun a x => a + g x) n = n + (l.map g).sum
  | [], n => by simp
  | x :: l, n => by
    simp [List.foldl_cons, foldl_add_sum g l (n + g x), Nat.add_assoc]

/-- A sum of naturals is zero iff every term is zero. -/
theorem natSum_eq_zero : ∀ l : List Nat, l.sum = 0 ↔ ∀ x ∈ l, x = 0
  | [] => by simp
  | x :: l => by simp [natSum_eq_zero l]

/-- The direct-file loop counts and sizes exactly the `directMatch` files. -/
theorem scanFiles_go (w : Window) (q : String) (fs : List FileEntry) :
    ∀ c s : Nat,
      fs.foldl (scanStep w q) (c, s) =
        (c + (fs.filter (directMatch w q)).length,
         s + ((fs.filter (directMatch w q)).map (fun f => f.size)).sum) := by
  induction fs with
  | nil => intro c s; simp
  | cons f fs ih =>
    intro c s
    by_cases h1 : (is_excluded_path (joinPath q f.name) || f.islink) = true
    · have hd : directMatch w q f = false := by
        rcases Bool.or_eq_true_iff.mp h1 with h | h <;> simp [directMatch, h]
      simp only [List.foldl_cons, scanStep, h1, if_true, List.filter_cons, hd]
      exact ih c s
    · have h1' : (is_excluded_path (joinPath q f.name) || f.islink) = false := by
        simpa using h1
      have hne : is_excluded_path (joinPath q f.name) = false :=
        (Bool.or_eq_false_iff.mp h1').1
      have hnl : f.islink = false := (Bool.or_eq_false_iff.mp h1').2
      by_cases h2 : fileMatches w f.time = true
      · have hd : directMatch w q f = true := by simp [directMatch, hne, hnl, h2]
        simp only [List.foldl_cons, scanStep, h1', Bool.false_eq_true, if_false, h2, if_true,
          List.filter_cons, hd, ih (c + 1) (s + f.size)]
        simp [Nat.add_assoc, Nat.add_comm, Nat.add_left_comm]
      · have h2' : fileMatches w f.time = false := by simpa using h2
        have hd : directMatch w q f = false := by simp [directMatch, h2']
        simp only [List.foldl_cons, scanStep, h1', Bool.false_eq_true, if_false, h2',
          List.filter_cons, hd]
        exact ih c s

/-- `scanFiles` in closed form. -/
theorem scanFiles_eq (w : Window) (q : String) (fs : List FileEntry) :
    scanFiles w q fs =
      ((fs.filter (directMatch w q)).length,
       ((fs.filter (directMatch w q)).map (fun f => f.size)).sum) := by
  simpa using scanFiles_go w q fs 0 0

/-- The per-visit accumulator of the rollup re-walk, in closed form. -/
theorem visitSize_eq (q : String) (fs : List FileEntry) :
    visitSize q fs = ((keepFiles q fs).map (fun f => f.size)).sum := by
  suffices h : ∀ n : Nat,
      fs.foldl (fun acc f => if is_excluded_path (joinPath q f.name) then acc else acc + f.size) n
        = n + ((keepFiles q fs).map (fun f => f.size)).sum by
    simpa [visitSize] using h 0
  induction fs with
  | nil => intro n; simp [keepFiles]
  | cons f fs ih =>
    intro n
    by_cases h : is_excluded_path (joinPath q f.name) = true
    · simp only [List.foldl_cons, h, if_true, keepFiles, List.filter_cons, Bool.not_eq_true',
        Bool.not_true]
      simpa [keepFiles] using ih n
    · have h' : is_excluded_path (joinPath q f.name) = false := by simpa using h
      simp only [List.foldl_cons, h', Bool.false_eq_true, if_false]
      rw [ih (n + f.size)]
      simp [keepFiles, List.filter_cons, h', Nat.add_assoc]

/-- The visits of a forest are the concatenation of the subdirectory walks. -/
theorem walkForest_eq (p : String) :
    ∀ ds : Forest,
      walkForest p ds = (ds.toList.map (fun d => walkVisits (joinPath p d.name) d)).flatten
  | .nil => by simp [walkForest, Forest.toList]
  | .cons d rest => by
    simp [walkForest, Forest.toList, walkForest_eq p rest]

/-- `subtreeSize` is the sum of the per-visit sizes. -/
theorem subtreeSize_eq_sum (p : String) (t : FSTree) :
    subtreeSize p t = ((walkVisits p t).map (fun v => visitSize v.1 v.2.1)).sum := by
  simpa [subtreeSize] using
    foldl_add_sum (fun v : String × List FileEntry × Forest => visitSize v.1 v.2.1)
      (walkVisits p t) 0

/-- `subtreeSize` at a directory node: its own files plus its subtrees. -/
theorem subtreeSize_node (p n : String) (fs : List FileEntry) (ds : Forest) :
    subtreeSize p (.node n fs ds) =
      visitSize p fs + (ds.toList.map (fun d => subtreeSize (joinPath p d.name) d)).sum := by
  rw [subtreeSize_eq_sum]
  rw [show walkVisits p (.node n fs ds) = (p, fs, ds) :: walkForest p ds from rfl]
  simp only [List.map_cons, List.sum_cons, walkForest_eq, List.map_flatten, List.sum_flatten,
    List.map_map]
  congr 1
  refine congrArg List.sum ?_
  apply List.map_congr_left
  intro d _
  simp [subtreeSize_eq_sum, Function.comp]

/-- The rollup loop records nothing iff every subtree total is zero. -/
theorem rollup_eq_none (p : String) :
    ∀ ds : Forest,
      rollupGo p 0 ds = none ↔
        ∀ d ∈ ds.toList, subtreeSize (joinPath p d.name) d = 0
  | .nil => by simp [rollupGo, Forest.toList]
  | .cons d rest => by
    by_cases h : 0 < subtreeSize (joinPath p d.name) d
    · simp only [rollupGo, Nat.zero_add, h, if_true]
      constructor
      · intro hc; exact absurd hc (by simp)
      · intro hall
        exact absurd (hall d (by simp [Forest.toList])) (by omega)
    · have h0 : subtreeSize (joinPath p d.name) d = 0 := by omega
      simp only [rollupGo, Nat.zero_add, h0]
      simp only [Nat.lt_irrefl, if_false]
      rw [rollup_eq_none p rest]
      constructor
      · intro hall d' hd'
        rcases List.mem_cons.mp (by simpa [Forest.toList] using hd') with rfl | hmem
        · exact h0
        · exact hall d' hmem
      · intro hall d' hd'
        exact hall d' (by simp [Forest.toList, hd'])

/-- When the rollup loop records, it records the subtree total of the first
subdirectory whose subtree total is positive (all earlier ones were zero, so
the running accumulator equals exactly that subdirectory's total). -/
theorem rollup_eq_some (p : String) :
    ∀ (ds : Forest) (s : Nat),
      rollup p ds = some s ↔
        ∃ l₁ d l₂, ds.toList = l₁ ++ d :: l₂ ∧
          (∀ d' ∈ l₁, subtreeSize (joinPath p d'.name) d' = 0) ∧
          0 < subtreeSize (joinPath p d.name) d ∧
          s = subtreeSize (joinPath p d.name) d
  | .nil, s => by
    constructor
    · intro hc; exact absurd hc (by simp [rollup, rollupGo])
    · rintro ⟨l₁, d, l₂, hsplit, -⟩
      exact absurd hsplit (by simp [Forest.toList])
  | .cons d rest, s => by
    by_cases h : 0 < subtreeSize (joinPath p d.name) d
    · simp only [rollup, rollupGo, Nat.zero_add, h, if_true]
      constructor
      · intro hs
        exact ⟨[], d, rest.toList, by simp [Forest.toList], by simp, h, by
          simpa using hs.symm⟩
      · rintro ⟨l₁, d', l₂, hsplit, hzero, hpos, hval⟩
        match l₁, hsplit with
        | [], hsplit =>
          have hd : d' = d := by
            have := congrArg (fun l => l.head?) hsplit
            simpa [Forest.toList] using this.symm
          rw [hval, hd]
        | d₀ :: l₁, hsplit =>
          have hd : d₀ = d := by
            have := congrArg (fun l => l.head?) hsplit
            simpa [Forest.toList] using this.symm
          have : subtreeSize (joinPath p d.name) d = 0 := by
            rw [← hd]; exact hzero d₀ (by simp)
          omega
    · have h0 : subtreeSize (joinPath p d.name) d = 0 := by omega
      simp only [rollup, rollupGo, Nat.zero_add, h0, Nat.lt_irrefl, if_false]
      rw [show rollupGo p 0 rest = rollup p rest from rfl, rollup_eq_some p rest s]
      constructor
      · rintro ⟨l₁, d', l₂, hsplit, hzero, hpos, hval⟩
        refine ⟨d :: l₁, d', l₂, by simp [Forest.toList, hsplit], ?_, hpos, hval⟩
        intro d'' hd''
        rcases List.mem_cons.mp hd'' with rfl | hmem
        · exact h0
        · exact hzero d'' hmem
      · rintro ⟨l₁, d', l₂, hsplit, hzero, hpos, hval⟩
        match l₁, hsplit with
        | [], hsplit =>
          have hd : d' = d := by
            have := congrArg (fun l => l.head?) hsplit
            simpa [Forest.toList] using this.symm
          rw [hd] at hpos
          omega
        | d₀ :: l₁, hsplit =>
          have htail : rest.toList = l₁ ++ d' :: l₂ := by
            simpa [Forest.toList] using congrArg (fun l => l.tail) hsplit
          exact ⟨l₁, d', l₂, htail, fun d'' hm => hzero d'' (by simp [hm]), hpos, hval⟩

/-- Erasing excluded files does not change a directory's name. -/
theorem eraseName (p : String) (t : FSTree) : (eraseExcludedFiles p t).name = t.name := by
  cases t; rfl

/-- The subdirectory list after erasure, elementwise. -/
theorem eraseForest_toList (p : String) :
    ∀ ds : Forest,
      (eraseForest p ds).toList =
        ds.toList.map (fun d => eraseExcludedFiles (joinPath p d.name) d)
  | .nil => rfl
  | .cons d rest => by
    simp [eraseForest, Forest.toList, eraseForest_toList p rest]

/-- Erasure preserves the number of subdirectories. -/
theorem eraseForest_length (p : String) (ds : Forest) :
    (eraseForest p ds).length = ds.length := by
  simp [Forest.length, eraseForest_toList]

/-- Dropping excluded files does not change the rollup per-visit size. -/
theorem visitSize_keep (q : String) (fs : List FileEntry) :
    visitSize q (keepFiles q fs) = visitSize q fs := by
  rw [visitSize_eq, visitSize_eq]
  congr 1
  simp [keepFiles, List.filter_filter]

/-- Dropping excluded files does not change the direct-file scan. -/
theorem scanFiles_keep (w : Window) (q : String) (fs : List FileEntry) :
    scanFiles w q (keepFiles q fs) = scanFiles w q fs := by
  rw [scanFiles_eq, scanFiles_eq]
  have h : (keepFiles q fs).filter (directMatch w q) = fs.filter (directMatch w q) := by
    rw [keepFiles, List.filter_filter]
    apply List.filter_congr
    intro f _
    cases hd : directMatch w q f
    · simp
    · have : is_excluded_path (joinPath q f.name) = false := by
        have h1 := hd
        simp only [directMatch, Bool.and_eq_true, Bool.not_eq_true'] at h1
        exact h1.1.1
      simp [this]
  rw [h]

mutual

/-- Erasing excluded files leaves every rollup subtree total unchanged. -/
theorem subtreeSize_erase (q : String) :
    ∀ t : FSTree, subtreeSize q (eraseExcludedFiles q t) = subtreeSize q t
  | .node n fs ds => by
    rw [show eraseExcludedFiles q (.node n fs ds)
          = .node n (keepFiles q fs) (eraseForest q ds) from rfl]
    rw [subtreeSize_node, subtreeSize_node, visitSize_keep, subtreeSizeF_erase q ds]

/-- Forest version of `subtreeSize_erase`. -/
theorem subtreeSizeF_erase (p : String) :
    ∀ ds : Forest,
      ((eraseForest p ds).toList.map (fun d => subtreeSize (joinPath p d.name) d)).sum =
        (ds.toList.map (fun d => subtreeSize (joinPath p d.name) d)).sum
  | .nil => rfl
  | .cons d rest => by
    rw [show eraseForest p (.cons d rest)
          = .cons (eraseExcludedFiles (joinPath p d.name) d) (eraseForest p rest) from rfl]
    simp only [Forest.toList, List.map_cons, List.sum_cons]
    rw [eraseName (joinPath p d.name) d, subtreeSize_erase (joinPath p d.name) d,
      subtreeSizeF_erase p rest]

end

/-- Erasing excluded files leaves the rollup loop's behaviour unchanged. -/
theorem rollupGo_erase (q : String) :
    ∀ (ds : Forest) (acc : Nat), rollupGo q acc (eraseForest q ds) = rollupGo q acc ds
  | .nil, acc => rfl
  | .cons d rest, acc => by
    rw [show eraseForest q (.cons d rest)
          = .cons (eraseExcludedFiles (joinPath q d.name) d) (eraseForest q rest) from rfl]
    simp only [rollupGo]
    rw [eraseName (joinPath q d.name) d, subtreeSize_erase (joinPath q d.name) d]
    by_cases h : 0 < acc + subtreeSize (joinPath q d.name) d
    · simp [h]
    · simp only [h, if_false]
      exact rollupGo_erase q rest _

mutual

/-- Erasure transforms the walk's visits pointwise by `eraseVisit`. -/
theorem walkVisits_erase :
    ∀ (p : String) (t : FSTree),
      walkVisits p (eraseExcludedFiles p t) = (walkVisits p t).map eraseVisit
  | p, .node n fs ds => by
    rw [show eraseExcludedFiles p (.node n fs ds)
          = .node n (keepFiles p fs) (eraseForest p ds) from rfl]
    rw [show walkVisits p (FSTree.node n (keepFiles p fs) (eraseForest p ds))
          = (p, keepFiles p fs, eraseForest p ds) :: walkForest p (eraseForest p ds) from rfl]
    rw [show walkVisits p (FSTree.node n fs ds) = (p, fs, ds) :: walkForest p ds from rfl]
    rw [List.map_cons, walkForest_erase p ds]
    rfl

/-- Forest version of `walkVisits_erase`. -/
theorem walkForest_erase :
    ∀ (p : String) (ds : Forest),
      walkForest p (eraseForest p ds) = (walkForest p ds).map eraseVisit
  | _, .nil => rfl
  | p, .cons d rest => by
    rw [show eraseForest p (.cons d rest)
          = .cons (eraseExcludedFiles (joinPath p d.name) d) (eraseForest p rest) from rfl]
    rw [show walkForest p (Forest.cons (eraseExcludedFiles (joinPath p d.name) d)
            (eraseForest p rest))
          = walkVisits (joinPath p (eraseExcludedFiles (joinPath p d.name) d).name)
              (eraseExcludedFiles (joinPath p d.name) d) ++ walkForest p (eraseForest p rest)
        from rfl]
    rw [show walkForest p (Forest.cons d rest)
          = walkVisits (joinPath p d.name) d ++ walkForest p rest from rfl]
    rw [eraseName (joinPath p d.name) d, List.map_append,
      walkVisits_erase (joinPath p d.name) d, walkForest_erase p rest]

end

/-- Erasure leaves the per-visit record unchanged. -/
theorem dirRecordVisit_erase (w : Window) (q : String) (fs : List FileEntry) (ds : Forest) :
    dirRecordVisit w q (keepFiles q fs) (eraseForest q ds) = dirRecordVisit w q fs ds := by
  simp only [dirRecordVisit, scanFiles_keep, eraseForest_length]
  cases ds with
  | nil => rfl
  | cons d rest =>
    rw [show eraseForest q (.cons d rest)
          = .cons (eraseExcludedFiles (joinPath q d.name) d) (eraseForest q rest) from rfl]
    simp only [rollup]
    rw [show Forest.cons (eraseExcludedFiles (joinPath q d.name) d) (eraseForest q rest)
          = eraseForest q (.cons d rest) from rfl]
    rw [rollupGo_erase q (.cons d rest) 0]

/-- Removing every excluded file from the tree leaves `dir_info` unchanged:
no excluded file contributes to any record's count or size, directly or
through the rollup. -/
theorem walkRecords_erase (w : Window) (p : String) (t : FSTree) :
    walkRecords w p (eraseExcludedFiles p t) = walkRecords w p t := by
  rw [walkRecords, walkRecords, walkVisits_erase, List.filterMap_map]
  apply List.filterMap_congr
  intro v _
  show (if is_excluded_path (eraseVisit v).1 then none
        else (dirRecordVisit w (eraseVisit v).1 (eraseVisit v).2.1 (eraseVisit v).2.2).map
          (fun r => ((eraseVisit v).1, r))) = _
  rw [show (eraseVisit v).1 = v.1 from rfl, show (eraseVisit v).2.1 = keepFiles v.1 v.2.1 from rfl,
    show (eraseVisit v).2.2 = eraseForest v.1 v.2.2 from rfl, dirRecordVisit_erase]

/-- `startswith` is the literal string-prefix test. -/
theorem startswith_iff (d p : String) :
    startswith d p = true ↔ ∃ rest : String, p = d ++ rest := by
  simp only [startswith]
  rw [ List.isPrefixOf_iff_prefix]
  constructor
  · rintro ⟨t, ht⟩
    exact ⟨⟨t⟩, (String.ext (by rw [String.data_append]; exact ht)).symm⟩
  · rintro ⟨rest, rfl⟩
    exact ⟨rest.data, (String.data_append d rest).symm⟩

/-- A path below an excluded path is itself excluded. -/
theorem is_excluded_joinPath (q n : String) (h : is_excluded_path q = true) :
    is_excluded_path (joinPath q n) = true := by
  rw [is_excluded_path, List.any_eq_true] at h ⊢
  obtain ⟨d, hd, hpre⟩ := h
  obtain ⟨rest, rfl⟩ := (startswith_iff d q).mp hpre
  refine ⟨d, hd, ?_⟩
  rw [joinPath]
  by_cases he : endsWithSlash (d ++ rest) = true
  · simp only [he, if_true]
    exact (startswith_iff _ _).mpr ⟨rest ++ n, by simp [String.append_assoc]⟩
  · simp only [he, Bool.false_eq_true, if_false]
    exact (startswith_iff _ _).mpr ⟨rest ++ "/" ++ n, by simp [String.append_assoc]⟩

/-- `upsert` adds the projected value of the new record to the total. -/
theorem upsert_map_sum (g : Rec → Nat) (hg : ∀ a b, g (addRec a b) = g a + g b) :
    ∀ (acc : List (String × Rec)) (k : String) (r : Rec),
      ((upsert acc k r).map (fun pr => g pr.2)).sum
        = (acc.map (fun pr => g pr.2)).sum + g r
  | [], k, r => by simp [upsert]
  | (k', r') :: rest, k, r => by
    by_cases h : k' = k
    · simp only [upsert, h, if_true, List.map_cons, List.sum_cons, hg]
      omega
    · simp only [upsert, h, if_false, List.map_cons, List.sum_cons,
        upsert_map_sum g hg rest k r]
      omega

/-- Folding records into the summary adds their projected values. -/
theorem summarize_foldl_map_sum (g : Rec → Nat) (hg : ∀ a b, g (addRec a b) = g a + g b) :
    ∀ (di acc : List (String × Rec)),
      ((di.foldl (fun acc pr => upsert acc (groupKey pr.1) pr.2) acc).map
          (fun pr => g pr.2)).sum
        = (acc.map (fun pr => g pr.2)).sum + (di.map (fun pr => g pr.2)).sum
  | [], acc => by simp
  | pr :: di, acc => by
    simp only [List.foldl_cons, List.map_cons, List.sum_cons,
      summarize_foldl_map_sum g hg di (upsert acc (groupKey pr.1) pr.2),
      upsert_map_sum g hg acc (groupKey pr.1) pr.2]
    omega

/-- `upsert` at the updated key. -/
theorem lookupRec_upsert_self :
    ∀ (acc : List (String × Rec)) (k : String) (r : Rec),
      lookupRec (upsert acc k r) k
        = some (match lookupRec acc k with | some a => addRec a r | none => r)
  | [], k, r => by simp [upsert, lookupRec]
  | (k', r') :: rest, k, r => by
    by_cases h : k' = k
    · subst h
      simp [upsert, lookupRec]
    · have h' : ¬k = k' := fun hk => h hk.symm
      simp only [upsert, h, if_false, lookupRec, h']
      exact lookupRec_upsert_self rest k r

/-- `upsert` away from the updated key. -/
theorem lookupRec_upsert_ne :
    ∀ (acc : List (String × Rec)) (k : String) (r : Rec) (k₂ : String), k₂ ≠ k →
      lookupRec (upsert acc k r) k₂ = lookupRec acc k₂
  | [], k, r, k₂, h => by simp [upsert, lookupRec, h]
  | (k', r') :: rest, k, r, k₂, h => by
    by_cases hk : k' = k
    · subst hk
      simp [upsert, lookupRec, h]
    · by_cases hk2 : k₂ = k'
      · simp [upsert, hk, lookupRec, hk2]
      · simp only [upsert, hk, if_false, lookupRec, hk2]
        exact lookupRec_upsert_ne rest k r k₂ h

/-- Folding into the summary accumulates, per key, the projected sum of the
records grouping to that key. -/
theorem lookupRec_foldl (g : Rec → Nat) (hg : ∀ a b, g (addRec a b) = g a + g b) :
    ∀ (di acc : List (String × Rec)) (k : String),
      ((lookupRec (di.foldl (fun acc pr => upsert acc (groupKey pr.1) pr.2) acc) k).map
          g).getD 0
        = ((lookupRec acc k).map g).getD 0
          + ((di.filter (fun pr => groupKey pr.1 == k)).map (fun pr => g pr.2)).sum
  | [], acc, k => by simp
  | pr :: di, acc, k => by
    simp only [List.foldl_cons,
      lookupRec_foldl g hg di (upsert acc (groupKey pr.1) pr.2) k, List.filter_cons]
    by_cases h : groupKey pr.1 = k
    · subst h
      rw [lookupRec_upsert_self acc (groupKey pr.1) pr.2]
      simp only [beq_self_eq_true, if_true, List.map_cons, List.sum_cons]
      cases hacc : lookupRec acc (groupKey pr.1) <;> simp [hg] <;> omega
    · rw [lookupRec_upsert_ne acc (groupKey pr.1) pr.2 k (fun hk => h hk.symm)]
      have hb : (groupKey pr.1 == k) = false := by simpa using h
      simp [hb]

/-- A key is present in the folded summary iff it was present already or some
record groups to it. -/
theorem lookupRec_foldl_isSome :
    ∀ (di acc : List (String × Rec)) (k : String),
      (lookupRec (di.foldl (fun acc pr => upsert acc (groupKey pr.1) pr.2) acc) k).isSome = true
        ↔ (lookupRec acc k).isSome = true ∨ ∃ pr ∈ di, groupKey pr.1 = k
  | [], acc, k => by simp
  | pr :: di, acc, k => by
    simp only [List.foldl_cons,
      lookupRec_foldl_isSome di (upsert acc (groupKey pr.1) pr.2) k]
    by_cases h : groupKey pr.1 = k
    · subst h
      rw [lookupRec_upsert_self acc (groupKey pr.1) pr.2]
      simp
    · rw [lookupRec_upsert_ne acc (groupKey pr.1) pr.2 k (fun hk => h hk.symm)]
      constructor
      · rintro (hs | ⟨pr', hpr', hk⟩)
        · exact Or.inl hs
        · exact Or.inr ⟨pr', List.mem_cons_of_mem _ hpr', hk⟩
      · rintro (hs | ⟨pr', hpr', hk⟩)
        · exact Or.inl hs
        · rcases List.mem_cons.mp hpr' with rfl | hm
          · exact absurd hk h
          · exact Or.inr ⟨pr', hm, hk⟩

/-- Python `l[-1]` is the last element. -/
theorem pyIndex_neg_one (l : List String) : pyIndex l (-1) = l.getLast? := by
  cases l with
  | nil => rfl
  | cons a t =>
    rw [pyIndex, if_neg (by omega)]
    rw [if_pos (by simp only [List.length_cons]; omega)]
    have ht : ((-1 : Int) + ((a :: t).length : Int)).toNat = t.length := by
      simp only [List.length_cons]
      omega
    rw [ht, List.getLast?_eq_getElem?]
    simp

/-- Python `l[i-1]` for a valid 1-based index `i`. -/
theorem pyIndex_valid (l : List String) (i : Nat) (h1 : 1 ≤ i) :
    pyIndex l ((i : Int) - 1) = l[i - 1]? := by
  rw [pyIndex, if_pos (by omega)]
  have : ((i : Int) - 1).toNat = i - 1 := by omega
  rw [this]

/-- SELECT mode succeeds on indices whose lookup succeeds, and its result
holds exactly the looked-up entries. -/
theorem resolveSelect_some (l : List String) :
    ∀ S : List Nat, (∀ i ∈ S, (pyIndex l ((i : Int) - 1)).isSome = true) →
      ∃ sel, resolveSelect l S = some sel ∧
        ∀ x, x ∈ sel ↔ ∃ i ∈ S, pyIndex l ((i : Int) - 1) = some x
  | [], _ => ⟨[], rfl, by simp⟩
  | i :: S, h => by
    obtain ⟨x, hx⟩ := Option.isSome_iff_exists.mp (h i (by simp))
    obtain ⟨sel, hsel, hmem⟩ :=
      resolveSelect_some l S (fun j hj => h j (List.mem_cons_of_mem _ hj))
    refine ⟨x :: sel, ?_, ?_⟩
    · rw [resolveSelect, hx, hsel]
    · intro y
      simp only [List.mem_cons, hmem]
      constructor
      · rintro (rfl | ⟨j, hj, hjx⟩)
        · exact ⟨i, by simp, hx⟩
        · exact ⟨j, by simp [hj], hjx⟩
      · rintro ⟨j, hj, hjx⟩
        rcases hj with rfl | hm
        · exact Or.inl (by rw [hx] at hjx; exact (Option.some_inj.mp hjx).symm)
        · exact Or.inr ⟨j, hm, hjx⟩

/-- SELECT mode errors out as soon as one chosen index exceeds the list
length. -/
theorem resolveSelect_none_of_big (l : List String) :
    ∀ (S : List Nat) (i : Nat), i ∈ S → l.length < i → resolveSelect l S = none
  | [], i, hi, _ => absurd hi (by simp)
  | j :: S, i, hi, hbig => by
    rcases List.mem_cons.mp hi with rfl | hm
    · have hnone : pyIndex l ((i : Int) - 1) = none := by
        rw [pyIndex_valid l i (by omega)]
        exact List.getElem?_eq_none (by omega)
      rw [resolveSelect, hnone]
    · rw [resolveSelect, resolveSelect_none_of_big l S i hm hbig]
      cases pyIndex l ((j : Int) - 1) <;> rfl

/-- Membership in the IGNORE-mode result. -/
theorem mem_resolveIgnore (l : List String) (S : List Nat) (x : String) :
    x ∈ resolveIgnore l S ↔ ∃ j, j < l.length ∧ (j + 1) ∉ S ∧ l[j]? = some x := by
  rw [resolveIgnore, List.filterMap_map, List.mem_filterMap]
  constructor
  · rintro ⟨j, hj, hfx⟩
    have hjl : j < l.length := List.mem_range.mp hj
    by_cases hmem : (j + 1) ∈ S
    · rw [Function.comp, if_pos hmem] at hfx
      exact absurd hfx (by simp)
    · rw [Function.comp, if_neg hmem] at hfx
      refine ⟨j, hjl, hmem, ?_⟩
      rw [show ((j + 1 : Nat) : Int) - 1 = ((j : Nat) : Int) by omega,
        pyIndex, if_pos (by omega), Int.toNat_natCast] at hfx
      exact hfx
  · rintro ⟨j, hjl, hmem, hx⟩
    refine ⟨j, List.mem_range.mpr hjl, ?_⟩
    rw [Function.comp, if_neg hmem,
      show ((j + 1 : Nat) : Int) - 1 = ((j : Nat) : Int) by omega,
      pyIndex, if_pos (by omega), Int.toNat_natCast]
    exact hx

/-- Reading a whole list back off by position. -/
theorem range_filterMap_getElem {α : Type} :
    ∀ l : List α, (List.range l.length).filterMap (fun j => l[j]?) = l
  | [] => rfl
  | a :: t => by
    rw [List.length_cons, List.range_succ_eq_map, List.filterMap_cons]
    simp only [List.getElem?_cons_zero, List.filterMap_map]
    congr 1
    refine Eq.trans (List.filterMap_congr ?_) (range_filterMap_getElem t)
    intro j _
    simp [Function.comp]

/-- IGNORE mode with an empty chosen set keeps the whole list. -/
theorem resolveIgnore_nilS (l : List String) : resolveIgnore l [] = l := by
  rw [resolveIgnore, List.filterMap_map]
  calc ((List.range l.length).filterMap
          ((fun i => if i ∈ ([] : List Nat) then none else pyIndex l ((i : Int) - 1))
            ∘ (fun j => j + 1)))
      = (List.range l.length).filterMap (fun j => l[j]?) := by
        apply List.filterMap_congr
        intro j _
        rw [Function.comp, if_neg (by simp),
          show ((j + 1 : Nat) : Int) - 1 = ((j : Nat) : Int) by omega,
          pyIndex, if_pos (by omega), Int.toNat_natCast]
    _ = l := range_filterMap_getElem l

/-- Membership in the insertion step of the key sort. -/
theorem mem_insertSorted (x : String × Rec) :
    ∀ (l : List (String × Rec)) (y : String × Rec),
      y ∈ insertSorted x l ↔ y = x ∨ y ∈ l
  | [], y => by simp [insertSorted]
  | z :: rest, y => by
    rw [insertSorted]
    by_cases h : decide (x.1 ≤ z.1) = true
    · rw [if_pos h]
      simp [List.mem_cons]
    · rw [if_neg h]
      simp only [List.mem_cons, mem_insertSorted x rest y]
      tauto

/-- Membership is preserved by the key sort. -/
theorem mem_sortByKey :
    ∀ (di : List (String × Rec)) (x : String × Rec), x ∈ sortByKey di ↔ x ∈ di
  | [], x => by simp [sortByKey]
  | y :: rest, x => by
    rw [sortByKey, mem_insertSorted, mem_sortByKey rest x]
    simp

end HelperLemmas

section Claims

/-- C2: for every directory visited by the aggregation, not excluded, with at
least one direct match, the recorded `matchedFileCount` is the number of its
direct files that are not excluded, not symbolic links and inside the active
window (`timestamp >= start` without an end date, `start <= timestamp < end`
with one), and the recorded `totalSizeBytes` is the exact sum of those
files' sizes. -/
theorem claim_C2_direct_totals (w : Window) (p : String) (t : FSTree)
    (q : String) (fs : List FileEntry) (ds : Forest)
    (hv : (q, fs, ds) ∈ walkVisits p t) (hex : is_excluded_path q = false)
    (hm : 0 < (fs.filter (directMatch w q)).length) :
    (q, Rec.mk (fs.filter (directMatch w q)).length
        (((fs.filter (directMatch w q)).map (fun f => f.size)).sum)
        ds.length
        ((fs.filter (directMatch w q)).length)) ∈ walkRecords w p t ∧
    (∀ f : FileEntry, directMatch w q f = true ↔
      (is_excluded_path (joinPath q f.name) = false ∧ f.islink = false ∧
        match w.stop with
        | none => w.start ≤ f.time
        | some e => w.start ≤ f.time ∧ f.time < e)) := by
  constructor
  · rw [walkRecords]
    apply List.mem_filterMap.mpr
    refine ⟨(q, fs, ds), hv, ?_⟩
    simp only [hex, Bool.false_eq_true, if_false]
    simp only [dirRecordVisit, scanFiles_eq]
    rw [if_pos (Or.inl hm)]
    rfl
  · intro f
    cases hstop : w.stop <;>
      simp [directMatch, fileMatches, hstop, and_assoc, Bool.and_eq_true,
        decide_eq_true_eq, Bool.not_eq_true']

/-- Witness for C2 at a concrete tree: `/tmp` holds file `a` (size 100,
day 1, window start day 0, no end), so it is recorded as one match of
100 bytes. -/
theorem claim_C2_witness :
    ("/tmp", Rec.mk 1 100 1 1) ∈ walkRecords ⟨0, none⟩ "/tmp"
      (.node "tmp" [⟨"a", 100, 1, false⟩]
        (.cons (.node "sub" [⟨"b", 50, -5, false⟩] .nil) .nil)) := by
  have h := claim_C2_direct_totals ⟨0, none⟩ "/tmp"
    (.node "tmp" [⟨"a", 100, 1, false⟩]
      (.cons (.node "sub" [⟨"b", 50, -5, false⟩] .nil) .nil))
    "/tmp" [⟨"a", 100, 1, false⟩] (.cons (.node "sub" [⟨"b", 50, -5, false⟩] .nil) .nil)
    (by decide) (by decide) (by decide)
  exact h.1

/-- C1 (amended): a visited, non-excluded directory with zero direct window
matches and at least one subdirectory receives a record iff the sum of the
code's rollup subtree totals over all its subdirectories is positive; the
record then carries count 0, the subdirectory count, and as size the rollup
subtree total of the **first** subdirectory with a positive total (all
earlier subdirectory totals being zero) — the rollup total counts every
non-excluded file, symbolic links included, rather than the claim's full
non-symlink subtree sum. -/
theorem claim_C1_amended (w : Window) (p : String) (t : FSTree)
    (q : String) (fs : List FileEntry) (ds : Forest)
    (hv : (q, fs, ds) ∈ walkVisits p t) (hex : is_excluded_path q = false)
    (h0 : scanFiles w q fs = (0, 0)) (hds : ds ≠ Forest.nil) :
    ((dirRecordVisit w q fs ds).isSome = true ↔
      0 < (ds.toList.map (fun d => subtreeSize (joinPath q d.name) d)).sum) ∧
    (∀ r, dirRecordVisit w q fs ds = some r →
      (q, r) ∈ walkRecords w p t ∧ r.count = 0 ∧ r.file_count = 0 ∧
      r.dir_count = ds.length ∧
      ∃ l₁ d l₂, ds.toList = l₁ ++ d :: l₂ ∧
        (∀ d' ∈ l₁, subtreeSize (joinPath q d'.name) d' = 0) ∧
        0 < subtreeSize (joinPath q d.name) d ∧
        r.size = subtreeSize (joinPath q d.name) d) := by
  have hrec : dirRecordVisit w q fs ds
      = (rollup q ds).map (fun sz => ⟨0, sz, ds.length, 0⟩) := by
    cases ds with
    | nil => exact absurd rfl hds
    | cons d rest =>
      simp only [dirRecordVisit, h0]
      rw [if_neg (by omega)]
  constructor
  · rw [hrec]
    cases hr : rollup q ds with
    | none =>
      have hall := (rollup_eq_none q ds).mp hr
      have hsum : (ds.toList.map (fun d => subtreeSize (joinPath q d.name) d)).sum = 0 := by
        apply (natSum_eq_zero _).mpr
        intro x hx
        obtain ⟨d, hd, rfl⟩ := List.mem_map.mp hx
        exact hall d hd
      simp only [Option.map_none', Option.isSome_none]
      exact iff_of_false (by simp) (by omega)
    | some s =>
      obtain ⟨l₁, d, l₂, hsplit, hzero, hpos, hval⟩ := (rollup_eq_some q ds s).mp hr
      simp only [Option.map_some', Option.isSome_some]
      apply iff_of_true trivial
      have hd_mem : d ∈ ds.toList := by rw [hsplit]; simp
      have hmem2 : subtreeSize (joinPath q d.name) d
          ∈ ds.toList.map (fun d => subtreeSize (joinPath q d.name) d) :=
        List.mem_map_of_mem _ hd_mem
      have hle := List.single_le_sum (fun x _ => Nat.zero_le x) _ hmem2
      omega
  · intro r hr
    rw [hrec] at hr
    obtain ⟨sz, hsz, hre⟩ := Option.map_eq_some'.mp hr
    obtain ⟨l₁, d, l₂, hsplit, hzero, hpos, hval⟩ := (rollup_eq_some q ds sz).mp hsz
    refine ⟨?_, ?_, ?_, ?_, l₁, d, l₂, hsplit, hzero, hpos, ?_⟩
    · rw [walkRecords]
      apply List.mem_filterMap.mpr
      refine ⟨(q, fs, ds), hv, ?_⟩
      simp [hex, hrec, hsz, hre]
    · rw [← hre]
    · rw [← hre]
    · rw [← hre]
    · rw [← hre, hval]

/-- Witness for C1 (amended) at a concrete tree: `/x` has no direct files
and two subdirectories, the first empty and the second holding one 5-byte
file, so the biconditional holds with both sides true. -/
theorem claim_C1_witness :
    (dirRecordVisit ⟨0, none⟩ "/x" []
        (.cons (.node "a" [] .nil)
          (.cons (.node "b" [⟨"g", 5, 0, false⟩] .nil) .nil))).isSome = true ↔
      0 < ((Forest.cons (.node "a" [] .nil)
          (.cons (.node "b" [⟨"g", 5, 0, false⟩] .nil) .nil)).toList.map
            (fun d => subtreeSize (joinPath "/x" d.name) d)).sum :=
  (claim_C1_amended ⟨0, none⟩ "/x"
    (.node "x" [] (.cons (.node "a" [] .nil)
      (.cons (.node "b" [⟨"g", 5, 0, false⟩] .nil) .nil)))
    "/x" []
    (.cons (.node "a" [] .nil) (.cons (.node "b" [⟨"g", 5, 0, false⟩] .nil) .nil))
    (by decide) (by decide) (by decide) (by decide)).1

/-- C1 counterexample: under `/x` the first subdirectory holds only a
10-byte symbolic link and the second a 5-byte regular file.  The claim
predicts a record of size 5 (all non-excluded, non-symlink files beneath
`/x`), but the code records size 10: the rollup counts the symlink and
breaks before reaching the second subdirectory. -/
theorem claim_C1_counterexample :
    lookupRec (walkRecords ⟨0, none⟩ "/x"
        (.node "x" []
          (.cons (.node "a" [⟨"f", 10, 0, true⟩] .nil)
            (.cons (.node "b" [⟨"g", 5, 0, false⟩] .nil) .nil)))) "/x"
      = some ⟨0, 10, 2, 0⟩ ∧
    claimedRollupSize "/x"
        (.cons (.node "a" [⟨"f", 10, 0, true⟩] .nil)
          (.cons (.node "b" [⟨"g", 5, 0, false⟩] .nil) .nil)) = 5 := by
  constructor
  · decide
  · decide

/-- C3 counterexample: in the spec's own scenario `/tmp/sub` receives no
record at all — it has no subdirectories, so the rollup branch (`elif
dirs:`) never runs, and its only direct file lies outside the window. -/
theorem claim_C3_counterexample :
    lookupRec (walkRecords ⟨0, none⟩ "/tmp"
        (.node "tmp" [⟨"a", 100, 1, false⟩]
          (.cons (.node "sub" [⟨"b", 50, -5, false⟩] .nil) .nil))) "/tmp/sub" = none := by
  decide

/-- C3 (amended): for the scenario's input the aggregation produces exactly
one record: `/tmp` with `matchedFileCount = 1` and `totalSizeBytes = 100`;
`/tmp/sub` gets no record. -/
theorem claim_C3_amended :
    walkRecords ⟨0, none⟩ "/tmp"
        (.node "tmp" [⟨"a", 100, 1, false⟩]
          (.cons (.node "sub" [⟨"b", 50, -5, false⟩] .nil) .nil))
      = [("/tmp", ⟨1, 100, 1, 1⟩)] := by
  decide

/-- C4 (amended): symbolic links are skipped by the direct-file scan (they
never contribute to a matched count or size), but the rollup subtree total
and the `filelist.txt` manifest filter only on excluded paths: both include
every non-excluded file of the subtree, symbolic links included. -/
theorem claim_C4_amended :
    (∀ (w : Window) (q : String) (fs : List FileEntry),
      scanFiles w q fs = scanFiles w q (fs.filter (fun f => !f.islink))) ∧
    (∀ (p : String) (t : FSTree),
      subtreeSize p t =
        (((subtreeEntries p t).filter (fun e => !is_excluded_path e.1)).map
          (fun e => e.2.size)).sum) ∧
    (∀ (p : String) (t : FSTree),
      manifestFiles p t =
        ((subtreeEntries p t).filter (fun e => !is_excluded_path e.1)).map (fun e => e.1)) := by
  refine ⟨?_, ?_, ?_⟩
  · intro w q fs
    rw [scanFiles_eq, scanFiles_eq]
    have h : (fs.filter (fun f => !f.islink)).filter (directMatch w q)
        = fs.filter (directMatch w q) := by
      rw [List.filter_filter]
      apply List.filter_congr
      intro f _
      cases hd : directMatch w q f
      · simp
      · have hl : f.islink = false := by
          simp only [directMatch, Bool.and_eq_true, Bool.not_eq_true'] at hd
          exact hd.1.2
        simp [hl]
    rw [h]
  · intro p t
    rw [subtreeSize_eq_sum]
    simp only [subtreeEntries, List.filter_flatten, List.map_flatten, List.sum_flatten,
      List.map_map]
    refine congrArg List.sum ?_
    apply List.map_congr_left
    intro v _
    rw [visitSize_eq, keepFiles]
    simp only [Function.comp]
    rw [List.filter_map, List.map_map]
    rfl
  · intro p t
    simp only [manifestFiles, subtreeEntries, List.filter_flatten, List.map_flatten,
      List.map_map]
    refine congrArg List.flatten ?_
    apply List.map_congr_left
    intro v _
    simp only [Function.comp]
    rw [List.filter_map, List.map_map]
    rfl

/-- C4 counterexample: `/x/a` holds a single 7-byte symbolic link; it is
counted by the rollup (the record for `/x` has size 7 even though the
claim's non-symlink subtree total is 0) and its path is written to the
`filelist.txt` manifest. -/
theorem claim_C4_counterexample :
    walkRecords ⟨0, none⟩ "/x"
        (.node "x" [] (.cons (.node "a" [⟨"f", 7, 0, true⟩] .nil) .nil))
      = [("/x", ⟨0, 7, 1, 0⟩)] ∧
    manifestFiles "/x" (.node "x" [] (.cons (.node "a" [⟨"f", 7, 0, true⟩] .nil) .nil))
      = ["/x/a/f"] ∧
    claimedSubtreeSize "/x/a" (.node "a" [⟨"f", 7, 0, true⟩] .nil) = 0 := by
  refine ⟨by decide, by decide, by decide⟩

/-- C5 (amended): the total archive size adds, for every final path, its
size in the priority mapping (when present) **and** its size in the
additional mapping (when present); a path present in both mappings is
counted twice.  Only when no final path is present in both mappings does
the total agree with the claim's priority-first lookup. -/
theorem claim_C5_amended (pri add : List (String × Rec)) (finals : List String)
    (h : ∀ p ∈ finals, lookupRec pri p = none ∨ lookupRec add p = none) :
    totalArchiveSize pri add finals = claimedTotalSize pri add finals := by
  induction finals with
  | nil => rfl
  | cons p fs ih =>
    have hp := h p (by simp)
    have ht := ih (fun p' hp' => h p' (by simp [hp']))
    simp only [totalArchiveSize, claimedTotalSize, List.map_cons, List.sum_cons] at ht ⊢
    rcases hp with hp | hp <;> simp only [hp] <;> omega

/-- Witness for C5 (amended) with disjoint phase mappings. -/
theorem claim_C5_witness :
    totalArchiveSize [("/a", ⟨0, 3, 0, 0⟩)] [("/b", ⟨0, 4, 0, 0⟩)] ["/a", "/b"]
      = claimedTotalSize [("/a", ⟨0, 3, 0, 0⟩)] [("/b", ⟨0, 4, 0, 0⟩)] ["/a", "/b"] :=
  claim_C5_amended [("/a", ⟨0, 3, 0, 0⟩)] [("/b", ⟨0, 4, 0, 0⟩)] ["/a", "/b"] (by decide)

/-- C5 counterexample: a path present in both phase mappings (sizes 10 and
5) is counted twice — the code's total is 15 where the claim's
priority-first lookup gives 10. -/
theorem claim_C5_counterexample :
    totalArchiveSize [("/r", ⟨0, 10, 0, 0⟩)] [("/r", ⟨0, 5, 0, 0⟩)] ["/r"] = 15 ∧
    claimedTotalSize [("/r", ⟨0, 10, 0, 0⟩)] [("/r", ⟨0, 5, 0, 0⟩)] ["/r"] = 10 := by
  refine ⟨by decide, by decide⟩

/-- C6 (amended): in IGNORE mode out-of-range indices are silently dropped;
in SELECT mode an index greater than the list length raises an error
(`none`), and the index 0 — via Python's negative indexing — selects the
**last** displayed entry instead of being dropped. -/
theorem claim_C6_amended (l : List String) (S : List Nat) :
    resolveIgnore l S
        = resolveIgnore l (S.filter (fun i => decide (1 ≤ i) && decide (i ≤ l.length))) ∧
    (∀ i ∈ S, l.length < i → resolveSelect l S = none) ∧
    resolveSelect l [0] = (l.getLast?).map (fun x => [x]) := by
  refine ⟨?_, ?_, ?_⟩
  · rw [resolveIgnore, resolveIgnore]
    apply List.filterMap_congr
    intro a ha
    obtain ⟨j, hj, rfl⟩ := List.mem_map.mp ha
    have hjl : j < l.length := List.mem_range.mp hj
    by_cases hm : (j + 1) ∈ S
    · rw [if_pos hm, if_pos (List.mem_filter.mpr ⟨hm, by simp; omega⟩)]
    · rw [if_neg hm, if_neg (fun hc => hm (List.mem_filter.mp hc).1)]
  · intro i hi hbig
    exact resolveSelect_none_of_big l S i hi hbig
  · have h1 : (((0 : Nat) : Int) - 1) = -1 := by omega
    rw [resolveSelect, h1, pyIndex_neg_one]
    cases l.getLast? <;> rfl

/-- Witness for C6 (amended): SELECT with the out-of-range index 5 against
a one-entry list errors out. -/
theorem claim_C6_witness : resolveSelect ["a"] [5] = none :=
  (claim_C6_amended ["a"] [5]).2.1 5 (by decide) (by decide)

/-- C6 counterexample: on the two-entry list, SELECT with index 3 raises an
error (`none`) instead of silently dropping it (dropping would have given
`some []`), and SELECT with index 0 selects the last entry instead of
dropping it. -/
theorem claim_C6_counterexample :
    resolveSelect ["a", "b"] [3] = none ∧
    resolveSelect ["a", "b"]
        (([3] : List Nat).filter (fun i => decide (1 ≤ i) && decide (i ≤ 2))) = some [] ∧
    resolveSelect ["a", "b"] [0] = some ["b"] := by
  refine ⟨by decide, by decide, by decide⟩

/-- C7: with a duplicate-free displayed list and valid chosen indices,
SELECT succeeds and the IGNORE result is exactly the displayed list minus
the SELECT result; IGNORE with `NONE` (no indices) keeps the whole list. -/
theorem claim_C7_complement (l : List String) (S : List Nat) (hnd : l.Nodup)
    (hval : ∀ i ∈ S, 1 ≤ i ∧ i ≤ l.length) :
    (∃ sel, resolveSelect l S = some sel ∧
      (resolveIgnore l S).toFinset = l.toFinset \ sel.toFinset) ∧
    resolveIgnore l [] = l := by
  refine ⟨?_, resolveIgnore_nilS l⟩
  have hsome : ∀ i ∈ S, (pyIndex l ((i : Int) - 1)).isSome = true := by
    intro i hi
    obtain ⟨h1, h2⟩ := hval i hi
    rw [pyIndex_valid l i h1, List.getElem?_eq_getElem (show i - 1 < l.length by omega)]
    rfl
  obtain ⟨sel, hsel, hmem⟩ := resolveSelect_some l S hsome
  refine ⟨sel, hsel, ?_⟩
  ext x
  simp only [List.mem_toFinset, Finset.mem_sdiff]
  rw [mem_resolveIgnore]
  constructor
  · rintro ⟨j, hjl, hnin, hx⟩
    constructor
    · obtain ⟨hlt, hxe⟩ := List.getElem?_eq_some_iff.mp hx
      rw [← hxe]
      exact List.getElem_mem hlt
    · intro hxs
      obtain ⟨i, hiS, hieq⟩ := (hmem x).mp hxs
      obtain ⟨h1, h2⟩ := hval i hiS
      rw [pyIndex_valid l i h1] at hieq
      have hji : j = i - 1 := List.getElem?_inj hjl hnd (by rw [hx, hieq])
      apply hnin
      have hji' : j + 1 = i := by omega
      rw [hji']
      exact hiS
  · rintro ⟨hxl, hxns⟩
    obtain ⟨j, hjl, hxe⟩ := List.mem_iff_getElem.mp hxl
    refine ⟨j, hjl, ?_, by rw [List.getElem?_eq_getElem hjl, hxe]⟩
    intro hjS
    apply hxns
    apply (hmem x).mpr
    refine ⟨j + 1, hjS, ?_⟩
    rw [pyIndex_valid l (j + 1) (by omega)]
    simp only [Nat.add_sub_cancel]
    rw [List.getElem?_eq_getElem hjl, hxe]

/-- Witness for C7 on the list `["a", "b", "c"]` with chosen index 2. -/
theorem claim_C7_witness :
    (∃ sel, resolveSelect ["a", "b", "c"] [2] = some sel ∧
      (resolveIgnore ["a", "b", "c"] [2]).toFinset
        = (["a", "b", "c"] : List String).toFinset \ sel.toFinset) ∧
    resolveIgnore ["a", "b", "c"] [] = ["a", "b", "c"] :=
  claim_C7_complement ["a", "b", "c"] [2] (by decide) (by decide)

/-- C8: `summarize_directories` is a measure-preserving partition — the
summed `count` and `size` over all groups equal the sums over the input
records, every record folds into the group keyed by its path with the last
two segments dropped, and each group's fields are the elementwise sums of
its members' fields. -/
theorem claim_C8_summarize (di : List (String × Rec)) :
    ((summarize_directories di).map (fun pr => pr.2.count)).sum
        = (di.map (fun pr => pr.2.count)).sum ∧
    ((summarize_directories di).map (fun pr => pr.2.size)).sum
        = (di.map (fun pr => pr.2.size)).sum ∧
    (∀ pr ∈ di, (lookupRec (summarize_directories di) (groupKey pr.1)).isSome = true) ∧
    (∀ k r, lookupRec (summarize_directories di) k = some r →
      r.count = ((di.filter (fun pr => groupKey pr.1 == k)).map (fun pr => pr.2.count)).sum ∧
      r.size = ((di.filter (fun pr => groupKey pr.1 == k)).map (fun pr => pr.2.size)).sum ∧
      r.dir_count
        = ((di.filter (fun pr => groupKey pr.1 == k)).map (fun pr => pr.2.dir_count)).sum ∧
      r.file_count
        = ((di.filter (fun pr => groupKey pr.1 == k)).map (fun pr => pr.2.file_count)).sum) := by
  refine ⟨?_, ?_, ?_, ?_⟩
  · simpa using summarize_foldl_map_sum (fun r => r.count) (fun a b => rfl) di []
  · simpa using summarize_foldl_map_sum (fun r => r.size) (fun a b => rfl) di []
  · intro pr hpr
    rw [show summarize_directories di
        = di.foldl (fun acc pr => upsert acc (groupKey pr.1) pr.2) [] from rfl]
    rw [lookupRec_foldl_isSome di [] (groupKey pr.1)]
    exact Or.inr ⟨pr, hpr, rfl⟩
  · intro k r h
    have h' : lookupRec (di.foldl (fun acc pr => upsert acc (groupKey pr.1) pr.2) []) k
        = some r := h
    refine ⟨?_, ?_, ?_, ?_⟩
    · have := lookupRec_foldl (fun r => r.count) (fun a b => rfl) di [] k
      rw [h'] at this
      simpa [lookupRec] using this
    · have := lookupRec_foldl (fun r => r.size) (fun a b => rfl) di [] k
      rw [h'] at this
      simpa [lookupRec] using this
    · have := lookupRec_foldl (fun r => r.dir_count) (fun a b => rfl) di [] k
      rw [h'] at this
      simpa [lookupRec] using this
    · have := lookupRec_foldl (fun r => r.file_count) (fun a b => rfl) di [] k
      rw [h'] at this
      simpa [lookupRec] using this

/-- Witness for C8: the record at `/a/b/c` lands in the group keyed by
`/a`. -/
theorem claim_C8_witness :
    (lookupRec (summarize_directories [("/a/b/c", ⟨1, 2, 3, 4⟩)]) (groupKey "/a/b/c")).isSome
      = true :=
  (claim_C8_summarize [("/a/b/c", ⟨1, 2, 3, 4⟩)]).2.2.1 ("/a/b/c", ⟨1, 2, 3, 4⟩) (by decide)

/-- C9: `is_excluded_path` is a literal string-prefix test against the
configured list; `/root/.cache/foo/bar` is excluded; paths below an excluded
path are excluded; and removing every excluded file from the tree leaves the
aggregation's records unchanged — no file under an excluded prefix ever
contributes to any record's count or size, directly or through the rollup. -/
theorem claim_C9_exclusion :
    (∀ p : String, is_excluded_path p = true ↔
      ∃ d ∈ EXCLUDED_DIRECTORIES, ∃ rest : String, p = d ++ rest) ∧
    is_excluded_path "/root/.cache/foo/bar" = true ∧
    (∀ q n : String, is_excluded_path q = true → is_excluded_path (joinPath q n) = true) ∧
    (∀ (w : Window) (p : String) (t : FSTree),
      walkRecords w p (eraseExcludedFiles p t) = walkRecords w p t) := by
  refine ⟨?_, by decide, fun q n => is_excluded_joinPath q n, fun w p t => walkRecords_erase w p t⟩
  intro p
  simp only [is_excluded_path, List.any_eq_true, startswith_iff]

/-- Witness for C9: a file name joined below the excluded `/root/.cache/`
stays excluded. -/
theorem claim_C9_witness : is_excluded_path (joinPath "/root/.cache/" "x") = true :=
  claim_C9_exclusion.2.2.1 "/root/.cache/" "x" (by decide)

/-- C10: every displayed entry has a non-blank path and a positive
`file_count`; paths with at most two split segments collapse to the empty
group key; and the empty-string group is never displayed, hence never
selectable. -/
theorem claim_C10_display (di : List (String × Rec)) :
    (∀ p ∈ list_directory_info di, p ≠ "" ∧ ∃ r, (p, r) ∈ di ∧ 0 < r.file_count) ∧
    (∀ p : String, (pySplitSlash p).length ≤ 2 → groupKey p = "") ∧
    "" ∉ list_directory_info di := by
  have hmain : ∀ p ∈ list_directory_info di, p ≠ "" ∧ ∃ r, (p, r) ∈ di ∧ 0 < r.file_count := by
    intro p hp
    simp only [list_directory_info] at hp
    obtain ⟨pr, hpr, rfl⟩ := List.mem_map.mp hp
    have hf := List.mem_filter.mp hpr
    have hmem : pr ∈ di := (mem_sortByKey di pr).mp hf.1
    have hcond := hf.2
    simp only [Bool.and_eq_true, Bool.not_eq_true', beq_eq_false_iff_ne, ne_eq,
      decide_eq_true_eq] at hcond
    exact ⟨hcond.1, pr.2, by simpa using hmem, hcond.2⟩
  refine ⟨hmain, ?_, ?_⟩
  · intro p hlen
    rw [groupKey]
    have h2 : ((pySplitSlash p).dropLast).dropLast = [] := by
      apply List.eq_nil_of_length_eq_zero
      simp only [List.length_dropLast]
      omega
    rw [h2]
    rfl
  · intro hc
    exact absurd rfl (hmain "" hc).1

/-- Witness for C10: the single displayed entry `/a` has a non-blank path
and a positive count. -/
theorem claim_C10_witness :
    "/a" ≠ "" ∧ ∃ r, ("/a", r) ∈ [("/a", Rec.mk 1 2 3 4)] ∧ 0 < r.file_count :=
  (claim_C10_display [("/a", ⟨1, 2, 3, 4⟩)]).1 "/a" (by decide)

end Claims

end Kleanup
